import Mathlib

/-!
Shallow embedding of the BackTesting-Framework core
(`backtest.py`, `strategies/strategy1.py`, `strategies/strategy4.py`).

Prices, indicator values and equity are modelled as exact rationals (`ℚ`);
dates as naturals (the code only compares and subtracts dates).  Python
float special values (NaN from `0/0`, `float('inf')`) are modelled by
explicit wrapper types at the places the code can produce them.  The two
metrics the code computes with `np.sqrt` / float powers (Sharpe ratio,
CAGR) are modelled over `ℝ`.

Definitions come first, theorems afterwards.
-/

namespace Backtest

/-! ## Data model -/

/-- One row of the signal-augmented table that `generate_signals` returns
and `calculate_metrics` consumes: `Date`, `Close`, `Signal`, `EquityCurve`. -/
structure Row where
  date : ℕ
  close : ℚ
  signal : ℤ
  equity : ℚ
  deriving Repr, DecidableEq

/-- One OHLC bar as used by the strategies (they read only `High`, `Low`,
`Close` and the date index; `Open`/`Volume` are fetched but never read, and
per the data contract they are non-null, so they can never trigger
`dropna`). -/
structure Bar where
  date : ℕ
  high : ℚ
  low : ℚ
  close : ℚ
  deriving Repr, DecidableEq, Inhabited

/-! ## Signal state machine

Both strategies run the identical position-tracking loop
(`strategy1.py` lines 33–49, `strategy4.py` lines 32–46); they differ only
in the boolean buy/sell conditions computed beforehand.  The loop is
modelled over the per-bar list of `(buy_condition, sell_condition)`
pairs. -/

/-- The signal loop of `generate_signals`, started from a given
`in_position` flag: buy (`1`) only when flat and the buy condition holds,
sell (`-1`) only when long and the sell condition holds, else hold (`0`). -/
def signalLoopFrom (inPos : Bool) : List (Bool × Bool) → List ℤ
  | [] => []
  | (b, s) :: rest =>
    if !inPos && b then 1 :: signalLoopFrom true rest
    else if inPos && s then -1 :: signalLoopFrom false rest
    else 0 :: signalLoopFrom inPos rest

/-- The signal loop as the strategies run it (`in_position = False`
initially). -/
def signalLoop (conds : List (Bool × Bool)) : List ℤ :=
  signalLoopFrom false conds

/-- Strict alternation of the non-zero signals of a list.
`altB false l`: the next non-zero signal of `l` (if any) must be a buy `1`,
after which sells and buys alternate; `altB true l`: the next non-zero
signal must be a sell `-1`.  Holds (`0`) are skipped. -/
def altB : Bool → List ℤ → Bool
  | _, [] => true
  | false, s :: l =>
    if s = 0 then altB false l else if s = 1 then altB true l else false
  | true, s :: l =>
    if s = 0 then altB true l else if s = -1 then altB false l else false

/-! ## Equity curve simulator

`strategy1.py` lines 52–70 / `strategy4.py` lines 48–67: `EquityCurve`
starts at `1.0`; for `i ≥ 1` the value is computed from `Signal[i-1]`,
`Close[i-1]` and `EquityCurve[i-1]`, with a persistent
`(in_position, entry_price)` state. -/

/-- One state update of the equity loop on the previous bar's
`(Signal, Close)`: a buy sets the position and the entry price
unconditionally; a sell while long clears the position (the entry-price
variable is left as is); otherwise the state is unchanged. -/
def eqStep : Bool × ℚ → ℤ × ℚ → Bool × ℚ
  | (pos, entry), (s, c) =>
    if s = 1 then (true, c)
    else if s = -1 ∧ pos = true then (false, entry)
    else (pos, entry)

/-- The equity value written at step `i` from the state, the previous
equity and the previous bar's `(Signal, Close)`. -/
def eqVal : Bool × ℚ → ℚ → ℤ × ℚ → ℚ
  | (pos, entry), e, (s, c) =>
    if s = 1 then e
    else if s = -1 ∧ pos = true then e * (1 + (c - entry) / entry)
    else e

/-- The equity loop: consumes the `(Signal, Close)` pairs of bars
`0 … n-2` and emits the equity values of bars `1 … n-1`. -/
def equityAux (st : Bool × ℚ) (e : ℚ) : List (ℤ × ℚ) → List ℚ
  | [] => []
  | sc :: rest => eqVal st e sc :: equityAux (eqStep st sc) (eqVal st e sc) rest

/-- The full `EquityCurve` column from the per-bar `(Signal, Close)` pairs:
first value fixed at `1.0`, the rest produced by the lag-one loop (the last
bar's own signal is never consumed). -/
def equityCurve : List (ℤ × ℚ) → List ℚ
  | [] => []
  | sc :: scs => 1 :: equityAux (false, 0) 1 (sc :: scs).dropLast

/-! ## Trade ledger (`backtest.py` lines 49–69) -/

/-- One completed round-trip trade as recorded by `calculate_metrics`. -/
structure Trade where
  entryDate : ℕ
  exitDate : ℕ
  entryPrice : ℚ
  exitPrice : ℚ
  retPct : ℚ
  deriving Repr, DecidableEq

/-- The trade record appended on a sell: entry/exit date and close taken at
the signal bars themselves, `Return % = (exit - entry) / entry * 100`. -/
def mkTrade (e x : Row) : Trade :=
  { entryDate := e.date, exitDate := x.date, entryPrice := e.close,
    exitPrice := x.close, retPct := (x.close - e.close) / e.close * 100 }

/-- The position-tracking scan of `calculate_metrics`: `none` = flat,
`some e` = long since row `e`.  A buy is taken only when flat, a sell only
when long; everything else (including a buy while long) changes nothing. -/
def tradesScanAux : Option Row → List Row → List Trade
  | none, [] => []
  | some _, [] => []
  | none, r :: rest =>
    if r.signal = 1 then tradesScanAux (some r) rest
    else tradesScanAux none rest
  | some e, r :: rest =>
    if r.signal = -1 then mkTrade e r :: tradesScanAux none rest
    else tradesScanAux (some e) rest

/-- The trade ledger of `calculate_metrics` (loop at lines 54–69),
starting flat. -/
def tradesScan (rows : List Row) : List Trade :=
  tradesScanAux none rows

/-! ## `calculate_metrics` (`backtest.py` lines 17–105)

The Sharpe ratio and the CAGR involve `np.sqrt` and float powers; they are
modelled over `ℝ` further below.  Everything else `calculate_metrics`
computes is exact rational arithmetic and is modelled here. -/

/-- `Series.diff()` continuation: differences against the previous value. -/
def diffAux : ℤ → List ℤ → List ℤ
  | _, [] => []
  | prev, s :: rest => (s - prev) :: diffAux s rest

/-- `df["Signal"].diff().fillna(0)` (`backtest.py` line 20): consecutive
differences, the first entry (`NaN` in pandas) replaced by `0`. -/
def sigDiffs : List ℤ → List ℤ
  | [] => []
  | s :: rest => 0 :: diffAux s rest

/-- `cummax` continuation: running maximum seen so far. -/
def cummaxFrom (m : ℚ) : List ℚ → List ℚ
  | [] => []
  | x :: xs => max m x :: cummaxFrom (max m x) xs

/-- `Series.cummax()` (`backtest.py` line 44). -/
def cummax : List ℚ → List ℚ
  | [] => []
  | x :: xs => x :: cummaxFrom x xs

/-- `(EquityCurve - Peak) / Peak` (`backtest.py` line 45). -/
def drawdowns (l : List ℚ) : List ℚ :=
  List.zipWith (fun e p => (e - p) / p) l (cummax l)

/-- `df["Drawdown"].min()` (`backtest.py` line 46); `none` for an empty
series (pandas `NaN`), which `calculate_metrics` never reaches. -/
def maxDrawdown (l : List ℚ) : Option ℚ :=
  (drawdowns l).min?

/-- Mean of a rational series (`Series.mean()`); the code only takes means
of non-empty series. -/
def meanQ (l : List ℚ) : ℚ :=
  l.sum / l.length

/-- Value of the profit factor (`backtest.py` line 79): a finite rational,
or the explicit `float('inf')` sentinel when there are no losses. -/
inductive PFVal where
  | fin (q : ℚ)
  | inf
  deriving Repr, DecidableEq

/-- `profits / losses if losses != 0 else float('inf')`
(`backtest.py` lines 77–79). -/
def profitFactor (rets : List ℚ) : PFVal :=
  let profits := (rets.filter (fun r => 0 < r)).sum
  let losses := |(rets.filter (fun r => r < 0)).sum|
  if losses ≠ 0 then PFVal.fin (profits / losses) else PFVal.inf

/-- The exact-arithmetic fields of the metrics dictionary
(`backtest.py` lines 87–99). -/
structure MetricsR where
  totalTrades : ℕ
  totalReturn : ℚ
  maxDD : Option ℚ
  winRate : ℚ
  pf : PFVal
  avgTrade : ℚ
  avgWin : ℚ
  avgLoss : ℚ
  trades : List Trade
  deriving Repr, DecidableEq

/-- `calculate_metrics` (`backtest.py` lines 17–105): the diff-based
precheck (lines 20–26), the trade scan, the empty-ledger check
(lines 72–74), and the rational metric fields.  `rows` is non-empty
whenever the prechecks pass, so the list defaults below are never used. -/
def calcMetrics (rows : List Row) : Option MetricsR :=
  let sigs := rows.map (·.signal)
  let d := sigDiffs sigs
  if d.count 1 = 0 ∨ d.count (-2) = 0 then none
  else
    let trades := tradesScan rows
    if trades = [] then none
    else
      let eq := rows.map (·.equity)
      let rets := trades.map (·.retPct)
      let wins := rets.filter (fun r => 0 < r)
      let losers := rets.filter (fun r => r < 0)
      some {
        totalTrades := trades.length
        totalReturn := eq.getLastD 0 / eq.headD 0 - 1
        maxDD := maxDrawdown eq
        winRate := (wins.length : ℚ) / rets.length
        pf := profitFactor rets
        avgTrade := meanQ rets
        avgWin := if wins.length > 0 then meanQ wins else 0
        avgLoss := if losers.length > 0 then meanQ losers else 0
        trades := trades }

/-- Whether a signal list contains a sell immediately after a buy
(the only pattern the `diff() == -2` exit precheck can detect on signals
valued in `{-1, 0, 1}`). -/
def hasBuySell : List ℤ → Bool
  | s :: t :: rest => (s == 1 && t == -1) || hasBuySell (t :: rest)
  | _ => false

/-! ## Real-valued metrics: Sharpe ratio and CAGR -/

/-- `Series.pct_change()` continuation. -/
def pctAux : ℚ → List ℚ → List ℚ
  | _, [] => []
  | prev, y :: rest => (y / prev - 1) :: pctAux y rest

/-- `df["EquityCurve"].pct_change().fillna(0)` (`backtest.py` line 38):
ratio to the previous value minus one, first entry replaced by `0`.
(Equity values are positive on every reachable path, so the float
division here is ordinary rational division.) -/
def dailyReturns : List ℚ → List ℚ
  | [] => []
  | x :: rest => 0 :: pctAux x rest

/-- Sample variance with `ddof = 1` (the square of pandas
`Series.std()`); `none` models the `NaN` that pandas returns for a series
of length `≤ 1`. -/
def sampleVar (l : List ℚ) : Option ℚ :=
  if l.length ≤ 1 then none
  else some ((l.map (fun x => (x - meanQ l) ^ 2)).sum / ((l.length : ℚ) - 1))

/-- A Python/numpy float value: finite, `±inf`, or `NaN`. -/
inductive RVal where
  | fin (x : ℝ)
  | posInf
  | negInf
  | nan

/-- IEEE-754 division of a finite float by the standard deviation (a
finite float or `NaN`): `0/0` is `NaN`, `±x/0` is `±inf`, anything
divided by `NaN` is `NaN`. -/
noncomputable def floatDivByStd (a : ℝ) : RVal → RVal
  | RVal.fin b =>
    if b = 0 then
      (if a = 0 then RVal.nan else if 0 < a then RVal.posInf else RVal.negInf)
    else RVal.fin (a / b)
  | RVal.posInf => RVal.fin 0
  | RVal.negInf => RVal.fin 0
  | RVal.nan => RVal.nan

/-- `df["Daily_Return"].std()` (`backtest.py` line 40): the square root of
the sample variance, `NaN` for series of length `≤ 1`. -/
noncomputable def pandasStd (l : List ℚ) : RVal :=
  match sampleVar l with
  | none => RVal.nan
  | some v => RVal.fin (Real.sqrt (v : ℝ))

/-- `sharpe_ratio = np.sqrt(252) * avg_daily_return / daily_std`
(`backtest.py` line 41), over the daily-return series of an equity
curve. -/
noncomputable def sharpeRatio (eq : List ℚ) : RVal :=
  let rets := dailyReturns eq
  floatDivByStd (Real.sqrt 252 * (meanQ rets : ℝ)) (pandasStd rets)

/-- `cagr = (1 + total_return) ** (1 / num_years) - 1` with
`num_years = (last date - first date).days / 365`
(`backtest.py` lines 34–35). -/
noncomputable def cagrCode (tr : ℝ) (firstDate lastDate : ℕ) : ℝ :=
  (1 + tr) ^ (1 / (((lastDate - firstDate : ℕ) : ℝ) / 365)) - 1

/-- The spec's CAGR formula: `(1 + total return) ^ (365 / total days) - 1`
(spec §4.4). -/
noncomputable def cagrSpec (tr : ℝ) (totalDays : ℕ) : ℝ :=
  (1 + tr) ^ ((365 : ℝ) / (totalDays : ℝ)) - 1

/-! ## Strategy pipelines (`strategies/strategy1.py`,
`strategies/strategy4.py`)

Rolling indicators are `some` only once `window` prior bars exist
(pandas emits `NaN` before that); `dropna()` then removes every row with a
`NaN` in any column.  The IBS column of strategy 1 is a float division
that can itself produce `NaN` (`0/0`) or `±inf` (`x/0`, `x ≠ 0`); pandas
`dropna` removes `NaN` rows but keeps `±inf` rows, so IBS is modelled with
an explicit float-value type. -/

/-- A float cell produced by a rational division: finite, `±inf` (`x/0`,
`x ≠ 0`) or `NaN` (`0/0`). -/
inductive QVal where
  | fin (q : ℚ)
  | posInf
  | negInf
  | nan
  deriving Repr, DecidableEq, Inhabited

/-- Float division of two rationals with IEEE-754 zero-denominator
behaviour. -/
def qdiv (a b : ℚ) : QVal :=
  if b = 0 then
    (if a = 0 then QVal.nan else if 0 < a then QVal.posInf else QVal.negInf)
  else QVal.fin (a / b)

/-- `x < q` on a float cell (comparisons against `NaN` are `False`). -/
def qlt (v : QVal) (q : ℚ) : Bool :=
  match v with
  | QVal.fin a => a < q
  | QVal.posInf => false
  | QVal.negInf => true
  | QVal.nan => false

/-- A rolling-window aggregate: at index `i` the aggregate of the `w`
values ending at `i`, or `none` while fewer than `w` values exist. -/
def rollingOpt (f : List ℚ → ℚ) (w : ℕ) (l : List ℚ) (i : ℕ) : Option ℚ :=
  if w ≤ i + 1 then some (f ((l.take (i + 1)).drop (i + 1 - w))) else none

/-- Maximum of a window (windows are non-empty wherever the code takes
one). -/
def winMax (l : List ℚ) : ℚ :=
  l.max?.getD 0

/-- Minimum of a window. -/
def winMin (l : List ℚ) : ℚ :=
  l.min?.getD 0

/-- One row of strategy 1's working table after the indicator columns are
added (`strategy1.py` lines 17–20): `10D_High`, `Range_25D`,
`Buy_Threshold = 10D_High - Range_25D`, `IBS = (Close-Low)/(High-Low)`. -/
structure S1Row where
  bar : Bar
  tenDHigh : Option ℚ
  range25 : Option ℚ
  buyThr : Option ℚ
  ibs : QVal
  deriving Repr, DecidableEq, Inhabited

/-- Strategy 1's indicator-augmented table. -/
def s1Aug (bars : List Bar) : List S1Row :=
  (List.range bars.length).map (fun i =>
    let b := bars.getD i default
    let tdh := rollingOpt winMax 10 (bars.map (·.high)) i
    let r25 := rollingOpt meanQ 25 (bars.map (fun x => x.high - x.low)) i
    { bar := b
      tenDHigh := tdh
      range25 := r25
      buyThr := match tdh, r25 with
        | some a, some b => some (a - b)
        | _, _ => none
      ibs := qdiv (b.close - b.low) (b.high - b.low) })

/-- `df.dropna()` for strategy 1 (`strategy1.py` line 23): keep the rows
where every indicator is defined and the IBS division did not produce
`NaN` (pandas keeps `±inf` rows). -/
def s1Kept (bars : List Bar) : List S1Row :=
  (s1Aug bars).filter (fun r =>
    r.tenDHigh.isSome && r.range25.isSome && r.buyThr.isSome &&
      !(r.ibs == QVal.nan))

/-- Strategy 1's per-row buy/sell conditions on the cleaned table
(`strategy1.py` lines 26–27): buy iff `Close < Buy_Threshold` and
`IBS < 0.3`; sell iff `Close > High.shift(1)` (false on the first row,
where the shifted value is `NaN`). -/
def s1Conds (kept : List S1Row) : List (Bool × Bool) :=
  (List.range kept.length).map (fun i =>
    let r := kept.getD i default
    (decide (r.bar.close < r.buyThr.getD 0) && qlt r.ibs (3 / 10),
     match i with
     | 0 => false
     | j + 1 => decide (r.bar.close > (kept.getD j default).bar.high)))

/-- Assembly of the output table (`Date`, `Close`, `Signal`,
`EquityCurve`) from dates, closes and per-bar entry/exit predicate values:
signals from the state machine, equity from the lag-one equity loop. -/
def pipeline (dates : List ℕ) (closes : List ℚ) (conds : List (Bool × Bool)) :
    List Row :=
  let sigs := signalLoop conds
  let eqs := equityCurve (sigs.zip closes)
  List.zipWith (fun dc se => ⟨dc.1, dc.2, se.1, se.2⟩)
    (dates.zip closes) (sigs.zip eqs)

/-- Strategy 1's `generate_signals`: indicators, `dropna`, the signal state
machine, the equity loop, and the returned
`Date/Close/Signal/EquityCurve` table. -/
def strategy1 (bars : List Bar) : List Row :=
  let kept := s1Kept bars
  pipeline (kept.map (·.bar.date)) (kept.map (·.bar.close)) (s1Conds kept)

/-- One row of strategy 4's working table (`strategy4.py` lines 17–19):
`Range = High - Low`, `Min_Range_6D = Range.shift(1).rolling(6).min()`,
`SMA_200 = Close.rolling(200).mean()`. -/
structure S4Row where
  bar : Bar
  range : ℚ
  minR6 : Option ℚ
  sma200 : Option ℚ
  deriving Repr, DecidableEq, Inhabited

/-- Strategy 4's indicator-augmented table.  `Range.shift(1).rolling(6)`
at index `i` aggregates the ranges of bars `i-6 … i-1`, defined once
`i ≥ 6`. -/
def s4Aug (bars : List Bar) : List S4Row :=
  let ranges := bars.map (fun x => x.high - x.low)
  (List.range bars.length).map (fun i =>
    let b := bars.getD i default
    { bar := b
      range := b.high - b.low
      minR6 := if 6 ≤ i then some (winMin ((ranges.take i).drop (i - 6)))
        else none
      sma200 := rollingOpt meanQ 200 (bars.map (·.close)) i })

/-- `df.dropna()` for strategy 4 (`strategy4.py` line 22). -/
def s4Kept (bars : List Bar) : List S4Row :=
  (s4Aug bars).filter (fun r => r.minR6.isSome && r.sma200.isSome)

/-- Strategy 4's per-row buy/sell conditions on the cleaned table
(`strategy4.py` lines 25–26): buy iff `Range < Min_Range_6D` and
`Close > SMA_200`; sell iff `Close > High.shift(1)`. -/
def s4Conds (kept : List S4Row) : List (Bool × Bool) :=
  (List.range kept.length).map (fun i =>
    let r := kept.getD i default
    (decide (r.range < r.minR6.getD 0) && decide (r.bar.close > r.sma200.getD 0),
     match i with
     | 0 => false
     | j + 1 => decide (r.bar.close > (kept.getD j default).bar.high)))

/-- Strategy 4's `generate_signals`. -/
def strategy4 (bars : List Bar) : List Row :=
  let kept := s4Kept bars
  pipeline (kept.map (·.bar.date)) (kept.map (·.bar.close)) (s4Conds kept)

/-! ## Concrete tables used by counterexamples and witnesses -/

/-- The concrete table refuting claim C1: signals `[0, 1, 0, -1]` contain a
completed buy (bar 1) → sell (bar 3) round trip, but the sell is not
adjacent to the buy, so `diff()` never equals `-2`. -/
def noAdjRows : List Row :=
  [⟨0, 10, 0, 1⟩, ⟨1, 10, 1, 1⟩, ⟨2, 11, 0, 1⟩, ⟨3, 12, -1, 1⟩]

/-- The spec scenario's predicate values: entry true only at index 0, exit
true only at index 3. -/
def scenConds : List (Bool × Bool) :=
  [(true, false), (false, false), (false, false), (false, true)]

/-- The spec scenario's price series. -/
def scenCloses : List ℚ := [100, 110, 90, 130]

/-! # Theorems -/

/-! ## Alternation of signals (claim C3) -/

theorem signalLoopFrom_altB (conds : List (Bool × Bool)) :
    ∀ p : Bool, altB p (signalLoopFrom p conds) = true := by
  induction conds with
  | nil => intro p; cases p <;> rfl
  | cons c rest ih =>
    intro p
    obtain ⟨b, s⟩ := c
    cases p with
    | false =>
      by_cases hb : b
      · simpa [signalLoopFrom, hb, altB] using ih true
      · simpa [signalLoopFrom, hb, altB] using ih false
    | true =>
      by_cases hs : s
      · simpa [signalLoopFrom, hs, altB] using ih false
      · simpa [signalLoopFrom, hs, altB] using ih true

/-- Counting consequence of alternation: starting flat, the number of
sells equals the number of buys or the buys exceed the sells by one (the
final position may stay open); starting long, symmetrically. -/
theorem altB_count (l : List ℤ) :
    ∀ p : Bool, altB p l = true →
      (if p then
        l.count (-1) = l.count 1 + 1 ∨ l.count (-1) = l.count 1
      else
        l.count (-1) = l.count 1 ∨ l.count 1 = l.count (-1) + 1) := by
  induction l with
  | nil => intro p _; cases p <;> simp
  | cons s rest ih =>
    intro p h
    cases p with
    | false =>
      by_cases h0 : s = 0
      · subst h0
        simp only [altB, if_pos rfl] at h
        simpa [List.count_cons] using ih false h
      · by_cases h1 : s = 1
        · subst h1
          simp only [altB] at h
          norm_num at h
          have := ih true h
          rcases this with h' | h' <;>
            simp only [List.count_cons, if_true] <;>
            simp [h0, h']
        · simp [altB, h0, h1] at h
    | true =>
      by_cases h0 : s = 0
      · subst h0
        simp only [altB, if_pos rfl] at h
        simpa [List.count_cons] using ih true h
      · by_cases h1 : s = -1
        · subst h1
          simp only [altB] at h
          norm_num at h
          have := ih false h
          rcases this with h' | h' <;>
            simp only [List.count_cons] <;>
            simp [h0, h']
        · simp [altB, h0, h1] at h

/-- C3: for every bar series and every pair of entry/exit predicates
(modelled as the per-bar condition list both strategies precompute), the
emitted signal sequence strictly alternates between buy and sell starting
with buy, and the number of sells equals the number of buys or the number
of buys minus one. -/
theorem signalLoop_alternates (conds : List (Bool × Bool)) :
    altB false (signalLoop conds) = true ∧
      ((signalLoop conds).count (-1) = (signalLoop conds).count 1 ∨
        (signalLoop conds).count 1 = (signalLoop conds).count (-1) + 1) := by
  have h := signalLoopFrom_altB conds false
  exact ⟨h, by simpa using altB_count (signalLoopFrom false conds) false h⟩

/-! ## Claim C1 -/

theorem hasBuySell_of_diffAux (prev : ℤ) (sigs : List ℤ)
    (hp : prev = -1 ∨ prev = 0 ∨ prev = 1)
    (hs : ∀ s ∈ sigs, s = -1 ∨ s = 0 ∨ s = 1)
    (hm : (-2 : ℤ) ∈ diffAux prev sigs) :
    hasBuySell (prev :: sigs) = true := by
  induction sigs generalizing prev with
  | nil => simp [diffAux] at hm
  | cons s rest ih =>
    simp only [diffAux, List.mem_cons] at hm
    rcases hm with hm | hm
    · have hs1 : s = -1 ∨ s = 0 ∨ s = 1 := hs s (by simp)
      rcases hp with hp | hp | hp <;> rcases hs1 with h1 | h1 | h1 <;>
        subst hp <;> subst h1 <;>
        first
          | (exfalso; omega)
          | simp [hasBuySell]
    · have := ih s (hs s (by simp)) (fun t ht => hs t (by simp [ht])) hm
      simp [hasBuySell, this]

theorem tradesScanAux_ne_nil (rows : List Row)
    (h : hasBuySell (rows.map (·.signal)) = true) :
    ∀ pos : Option Row, tradesScanAux pos rows ≠ [] := by
  induction rows with
  | nil => simp [hasBuySell] at h
  | cons r rest ih =>
    intro pos
    cases rest with
    | nil => simp [hasBuySell] at h
    | cons r2 rest2 =>
      simp only [List.map_cons, hasBuySell, Bool.or_eq_true, Bool.and_eq_true,
        beq_iff_eq] at h
      rcases h with ⟨h1, h2⟩ | h2
      · cases pos with
        | none => simp [tradesScanAux, h1, h2]
        | some e =>
          by_cases hr : r.signal = -1
          · simp [tradesScanAux, hr]
          · simp [tradesScanAux, hr, h2]
      · have ih2 := ih (by simpa [hasBuySell] using h2)
        cases pos with
        | none =>
          by_cases hr : r.signal = 1
          · simpa [tradesScanAux, hr] using ih2 (some r)
          · simpa [tradesScanAux, hr] using ih2 none
        | some e =>
          by_cases hr : r.signal = -1
          · simp [tradesScanAux, hr]
          · simpa [tradesScanAux, hr] using ih2 (some e)

/-- C1, counterexample: on the signal series `[0, 1, 0, -1]` — one buy
followed by a later sell, hence one completed round trip, as the trade
scan itself records — `calculate_metrics` nevertheless returns the absent
result, because its precheck (`backtest.py` lines 20–26) looks for
`diff() == -2` exits and no sell is adjacent to a buy. -/
theorem calcMetrics_none_despite_roundtrip :
    calcMetrics noAdjRows = none ∧
      tradesScan noAdjRows = [⟨1, 3, 10, 12, 20⟩] := by
  constructor
  · decide
  · simp [tradesScan, tradesScanAux, mkTrade, noAdjRows]
    norm_num

/-- C1, amended: `calculate_metrics` returns the absent result iff its
diff-based precheck fails, i.e. iff the signal series has no step up by
`1` or no step down by `2` (a sell immediately after a buy).  When both
steps exist a completed trade is guaranteed, so the later empty-ledger
check never fires; but a buy whose matching sell is not adjacent can be
reported as "no trades" even though a completed round trip exists. -/
theorem calcMetrics_none_iff (rows : List Row)
    (h : ∀ r ∈ rows, r.signal = -1 ∨ r.signal = 0 ∨ r.signal = 1) :
    calcMetrics rows = none ↔
      (sigDiffs (rows.map (·.signal))).count 1 = 0 ∨
      (sigDiffs (rows.map (·.signal))).count (-2) = 0 := by
  constructor
  · intro hnone
    by_contra hc
    push_neg at hc
    obtain ⟨h1, h2⟩ := hc
    have hall : ∀ t ∈ rows.map (·.signal), t = -1 ∨ t = 0 ∨ t = 1 := by
      intro t ht
      obtain ⟨r, hr, rfl⟩ := List.mem_map.mp ht
      exact h r hr
    have hmem : (-2 : ℤ) ∈ sigDiffs (rows.map (·.signal)) := by
      by_contra hmem
      exact h2 (List.count_eq_zero.mpr hmem)
    have hbs : hasBuySell (rows.map (·.signal)) = true := by
      cases hrow : rows.map (·.signal) with
      | nil => rw [hrow] at hmem; simp [sigDiffs] at hmem
      | cons s rest =>
        rw [hrow] at hmem
        simp only [sigDiffs, List.mem_cons] at hmem
        rcases hmem with hmem | hmem
        · norm_num at hmem
        · rw [hrow] at hall
          exact hasBuySell_of_diffAux s rest (hall s (by simp))
            (fun t ht => hall t (by simp [ht])) hmem
    have htr : tradesScan rows ≠ [] := tradesScanAux_ne_nil rows hbs none
    simp only [calcMetrics] at hnone
    rw [if_neg (by push_neg; exact ⟨h1, h2⟩)] at hnone
    rw [if_neg htr] at hnone
    exact Option.some_ne_none _ hnone
  · intro hz
    simp only [calcMetrics]
    rw [if_pos hz]

/-- C1, witness for the amended theorem at the concrete table
`noAdjRows`. -/
theorem calcMetrics_none_iff_witness :
    calcMetrics noAdjRows = none ↔
      (sigDiffs (noAdjRows.map (·.signal))).count 1 = 0 ∨
      (sigDiffs (noAdjRows.map (·.signal))).count (-2) = 0 :=
  calcMetrics_none_iff noAdjRows (by decide)

/-! ## Claim C5: the trade ledger matches the buy→sell pairs -/

theorem tradesScanAux_spec (rows : List Row) :
    ∀ pos : Option Row,
      altB pos.isSome (rows.map (·.signal)) = true →
      ((∀ t ∈ tradesScanAux pos rows,
          (∃ e, pos = some e ∧ ∃ mid x post,
            rows = mid ++ x :: post ∧ (∀ m ∈ mid, m.signal = 0) ∧
            x.signal = -1 ∧ t = mkTrade e x) ∨
          (∃ pre e mid x post,
            rows = pre ++ e :: (mid ++ x :: post) ∧ e.signal = 1 ∧
            x.signal = -1 ∧ (∀ m ∈ mid, m.signal = 0) ∧ t = mkTrade e x)) ∧
        (tradesScanAux pos rows).length =
          (rows.filter (fun r => r.signal == -1)).length) := by
  induction rows with
  | nil =>
    intro pos _
    cases pos <;> simp [tradesScanAux]
  | cons r rest ih =>
    intro pos h
    cases pos with
    | none =>
      by_cases h0 : r.signal = 0
      · have h' : altB false (rest.map (·.signal)) = true := by
          simpa [altB, h0] using h
        have IH := ih none (by simpa using h')
        have hscan : tradesScanAux none (r :: rest) = tradesScanAux none rest := by
          simp [tradesScanAux, h0]
        constructor
        · intro t ht
          rw [hscan] at ht
          rcases IH.1 t ht with ⟨e, he, _⟩ | ⟨pre, e, mid, x, post, hd, h1, hx, hmid, ht'⟩
          · exact absurd he (by simp)
          · exact Or.inr ⟨r :: pre, e, mid, x, post, by simp [hd], h1, hx, hmid, ht'⟩
        · rw [hscan, IH.2]
          simp [List.filter_cons, h0]
      · by_cases h1 : r.signal = 1
        · have h' : altB true (rest.map (·.signal)) = true := by
            simpa [altB, h0, h1] using h
          have IH := ih (some r) (by simpa using h')
          have hscan : tradesScanAux none (r :: rest) = tradesScanAux (some r) rest := by
            simp [tradesScanAux, h1]
          constructor
          · intro t ht
            rw [hscan] at ht
            rcases IH.1 t ht with ⟨e, he, mid, x, post, hd, hmid, hx, ht'⟩ |
              ⟨pre, e, mid, x, post, hd, he1, hx, hmid, ht'⟩
            · obtain rfl : r = e := by simpa using he
              exact Or.inr ⟨[], r, mid, x, post, by simp [hd], h1, hx, hmid, ht'⟩
            · exact Or.inr ⟨r :: pre, e, mid, x, post, by simp [hd], he1, hx, hmid, ht'⟩
          · rw [hscan, IH.2]
            simp [List.filter_cons, h1]
        · exfalso
          simp [altB, h0, h1] at h
    | some e =>
      by_cases h0 : r.signal = 0
      · have h' : altB true (rest.map (·.signal)) = true := by
          simpa [altB, h0] using h
        have IH := ih (some e) (by simpa using h')
        have hscan : tradesScanAux (some e) (r :: rest) = tradesScanAux (some e) rest := by
          simp [tradesScanAux, h0]
        constructor
        · intro t ht
          rw [hscan] at ht
          rcases IH.1 t ht with ⟨e', he', mid, x, post, hd, hmid, hx, ht'⟩ |
            ⟨pre, e', mid, x, post, hd, he1, hx, hmid, ht'⟩
          · obtain rfl : e = e' := by simpa using he'
            refine Or.inl ⟨e, rfl, r :: mid, x, post, by simp [hd], ?_, hx, ht'⟩
            intro m hm
            rcases List.mem_cons.mp hm with rfl | hm'
            · exact h0
            · exact hmid m hm'
          · exact Or.inr ⟨r :: pre, e', mid, x, post, by simp [hd], he1, hx, hmid, ht'⟩
        · rw [hscan, IH.2]
          simp [List.filter_cons, h0]
      · by_cases hm1 : r.signal = -1
        · have h' : altB false (rest.map (·.signal)) = true := by
            simpa [altB, h0, hm1] using h
          have IH := ih none (by simpa using h')
          have hscan : tradesScanAux (some e) (r :: rest) =
              mkTrade e r :: tradesScanAux none rest := by
            simp [tradesScanAux, hm1]
          constructor
          · intro t ht
            rw [hscan] at ht
            rcases List.mem_cons.mp ht with rfl | ht'
            · exact Or.inl ⟨e, rfl, [], r, rest, by simp, by simp, hm1, rfl⟩
            · rcases IH.1 t ht' with ⟨e', he', _⟩ |
                ⟨pre, e', mid, x, post, hd, he1, hx, hmid, ht''⟩
              · exact absurd he' (by simp)
              · exact Or.inr ⟨r :: pre, e', mid, x, post, by simp [hd], he1, hx, hmid, ht''⟩
          · rw [hscan]
            simp [List.filter_cons, hm1, IH.2]
        · exfalso
          simp [altB, h0, hm1] at h

/-- C5: when the signal column strictly alternates starting with a buy
(the invariant every generated signal sequence satisfies), the trade
ledger of `calculate_metrics` records, for every completed trade, the
entry date/close at a buy-signal bar and the exit date/close at a later
sell-signal bar with only holds in between (same-bar prices), with
`Return % = (exit - entry)/entry * 100`; and the number of recorded
trades equals the number of sell signals — every buy→sell pair yields
exactly one trade, an unmatched trailing buy yields none. -/
theorem tradesScan_pairs (rows : List Row)
    (h : altB false (rows.map (·.signal)) = true) :
    (∀ t ∈ tradesScan rows, ∃ pre e mid x post,
      rows = pre ++ e :: (mid ++ x :: post) ∧ e.signal = 1 ∧
      x.signal = -1 ∧ (∀ m ∈ mid, m.signal = 0) ∧ t = mkTrade e x) ∧
    (tradesScan rows).length = (rows.filter (fun r => r.signal == -1)).length := by
  have H := tradesScanAux_spec rows none (by simpa using h)
  refine ⟨?_, H.2⟩
  intro t ht
  rcases H.1 t ht with ⟨e, he, _⟩ | hr
  · exact absurd he (by simp)
  · exact hr

/-- C5, witness at the table with signals `[0, 1, 0, -1]`. -/
theorem tradesScan_pairs_witness :
    (∀ t ∈ tradesScan noAdjRows, ∃ pre e mid x post,
      noAdjRows = pre ++ e :: (mid ++ x :: post) ∧ e.signal = 1 ∧
      x.signal = -1 ∧ (∀ m ∈ mid, m.signal = 0) ∧ t = mkTrade e x) ∧
    (tradesScan noAdjRows).length =
      (noAdjRows.filter (fun r => r.signal == -1)).length :=
  tradesScan_pairs noAdjRows (by decide)

/-! ## Claim C4: the lag-one equity recurrence -/

theorem equityAux_length (l : List (ℤ × ℚ)) :
    ∀ (st : Bool × ℚ) (e : ℚ), (equityAux st e l).length = l.length := by
  induction l with
  | nil => intro st e; rfl
  | cons sc rest ih => intro st e; simp [equityAux, ih]

theorem equityCurve_length (scs : List (ℤ × ℚ)) :
    (equityCurve scs).length = scs.length := by
  cases scs with
  | nil => rfl
  | cons sc rest =>
    simp [equityCurve, equityAux_length]

theorem equityAux_getD :
    ∀ (i : ℕ) (l : List (ℤ × ℚ)) (st : Bool × ℚ) (e : ℚ), i < l.length →
      (equityAux st e l).getD i 0 =
        eqVal ((l.take i).foldl eqStep st)
          (if i = 0 then e else (equityAux st e l).getD (i - 1) 0)
          (l.getD i (0, 0)) := by
  intro i
  induction i with
  | zero =>
    intro l st e hl
    cases l with
    | nil => simp at hl
    | cons sc rest => simp [equityAux]
  | succ j ih =>
    intro l st e hl
    cases l with
    | nil => simp at hl
    | cons sc rest =>
      have hj : j < rest.length := by
        simp only [List.length_cons] at hl
        omega
      have IH := ih rest (eqStep st sc) (eqVal st e sc) hj
      show (eqVal st e sc :: equityAux (eqStep st sc) (eqVal st e sc) rest).getD (j+1) 0 = _
      rw [List.getD_cons_succ, IH]
      cases j with
      | zero => simp [equityAux]
      | succ k => simp [equityAux]

theorem equityAux_take_eq :
    ∀ (i : ℕ) (l1 l2 : List (ℤ × ℚ)) (st : Bool × ℚ) (e : ℚ),
      i < l1.length → i < l2.length → l1.take (i + 1) = l2.take (i + 1) →
      (equityAux st e l1).getD i 0 = (equityAux st e l2).getD i 0 := by
  intro i
  induction i with
  | zero =>
    intro l1 l2 st e h1 h2 ht
    cases l1 with
    | nil => simp at h1
    | cons a r1 =>
      cases l2 with
      | nil => simp at h2
      | cons b r2 =>
        simp only [List.take_succ_cons, List.take_zero] at ht
        obtain rfl : a = b := by simpa using ht
        simp [equityAux]
  | succ j ih =>
    intro l1 l2 st e h1 h2 ht
    cases l1 with
    | nil => simp at h1
    | cons a r1 =>
      cases l2 with
      | nil => simp at h2
      | cons b r2 =>
        simp only [List.take_succ_cons, List.cons.injEq] at ht
        obtain ⟨rfl, ht'⟩ := ht
        have hj1 : j < r1.length := by
          simp only [List.length_cons] at h1; omega
        have hj2 : j < r2.length := by
          simp only [List.length_cons] at h2; omega
        show (eqVal st e a :: equityAux (eqStep st a) (eqVal st e a) r1).getD (j+1) 0 =
          (eqVal st e a :: equityAux (eqStep st a) (eqVal st e a) r2).getD (j+1) 0
        rw [List.getD_cons_succ, List.getD_cons_succ]
        exact ih r1 r2 (eqStep st a) (eqVal st e a) hj1 hj2 ht'

/-- C4: the `EquityCurve` has the same length as the input, starts at
`1.0`, and satisfies the lag-one recurrence: the value at bar `i+1` is
computed by `eqVal` from the position state folded over the first `i`
`(Signal, Close)` pairs, the equity at bar `i`, and bar `i`'s pair — a buy
at `i` carries the equity and sets the entry price to `Close[i]`, a sell
at `i` while long realizes `(Close[i] - entry)/entry`, anything else
carries the equity.  Moreover the value at bar `i` is determined by the
pairs strictly before `i`: it never depends on the same bar's signal. -/
theorem equityCurve_spec (scs : List (ℤ × ℚ)) :
    (equityCurve scs).length = scs.length ∧
    (scs ≠ [] → (equityCurve scs).getD 0 0 = 1) ∧
    (∀ i, i + 1 < scs.length →
      (equityCurve scs).getD (i + 1) 0 =
        eqVal ((scs.take i).foldl eqStep (false, 0))
          ((equityCurve scs).getD i 0) (scs.getD i (0, 0))) ∧
    (∀ scs2 i, i < scs.length → i < scs2.length → scs.take i = scs2.take i →
      (equityCurve scs).getD i 0 = (equityCurve scs2).getD i 0) := by
  refine ⟨equityCurve_length scs, ?_, ?_, ?_⟩
  · intro hne
    cases scs with
    | nil => exact absurd rfl hne
    | cons sc rest => rfl
  · intro i hi
    cases scs with
    | nil => simp at hi
    | cons sc rest =>
      have hlen : (sc :: rest).dropLast.length = rest.length := by
        simp [List.length_dropLast]
      have hiL : i < (sc :: rest).dropLast.length := by
        simp only [List.length_cons] at hi
        omega
      show (1 :: equityAux (false, 0) 1 (sc :: rest).dropLast).getD (i + 1) 0 = _
      rw [List.getD_cons_succ, equityAux_getD i _ _ _ hiL]
      have htake : ((sc :: rest).dropLast).take i = (sc :: rest).take i := by
        rw [List.dropLast_eq_take, List.take_take]
        congr 1
        simp only [List.length_cons] at hi ⊢
        omega
      have hgetd : ((sc :: rest).dropLast).getD i (0, 0) = (sc :: rest).getD i (0, 0) := by
        rw [List.dropLast_eq_take]
        simp only [List.getD_eq_getElem?_getD]
        rw [List.getElem?_take_of_lt]
        simp only [List.length_cons] at hi ⊢
        omega
      rw [htake, hgetd]
      cases i with
      | zero => rfl
      | succ k =>
        show _ = eqVal _ ((1 :: equityAux (false, 0) 1 (sc :: rest).dropLast).getD (k + 1) 0) _
        rw [List.getD_cons_succ]
        rfl
  · intro scs2 i hi hi2 ht
    cases i with
    | zero =>
      cases scs with
      | nil => simp at hi
      | cons a r1 =>
        cases scs2 with
        | nil => simp at hi2
        | cons b r2 => rfl
    | succ j =>
      cases scs with
      | nil => simp at hi
      | cons a r1 =>
        cases scs2 with
        | nil => simp at hi2
        | cons b r2 =>
          show (1 :: equityAux (false, 0) 1 (a :: r1).dropLast).getD (j + 1) 0 =
            (1 :: equityAux (false, 0) 1 (b :: r2).dropLast).getD (j + 1) 0
          rw [List.getD_cons_succ, List.getD_cons_succ]
          apply equityAux_take_eq j _ _ _ _
          · simp only [List.length_dropLast, List.length_cons] at *
            omega
          · simp only [List.length_dropLast, List.length_cons] at *
            omega
          · rw [List.dropLast_eq_take, List.dropLast_eq_take,
              List.take_take, List.take_take]
            have e1 : min (j + 1) ((a :: r1).length - 1) = j + 1 := by
              simp only [List.length_cons] at hi ⊢
              omega
            have e2 : min (j + 1) ((b :: r2).length - 1) = j + 1 := by
              simp only [List.length_cons] at hi2 ⊢
              omega
            rw [e1, e2, ht]

/-- C4, witness: the recurrence conjunct applied at a concrete series
(buy at bar 0, realized sell at bar 1). -/
theorem equityCurve_spec_witness :
    (equityCurve [(1, 100), (-1, 130), (0, 50)]).getD 1 0 =
      eqVal (([((1 : ℤ), (100 : ℚ))].take 0).foldl eqStep (false, 0))
        ((equityCurve [(1, 100), (-1, 130), (0, 50)]).getD 0 0)
        ([((1 : ℤ), (100 : ℚ)), (-1, 130), (0, 50)].getD 0 (0, 0)) :=
  (equityCurve_spec [(1, 100), (-1, 130), (0, 50)]).2.2.1 0 (by decide)

/-! ## Claim C8: max drawdown -/

theorem zip_dd_nonpos (xs : List ℚ) :
    ∀ m, 0 < m → (∀ x ∈ xs, 0 < x) →
      ∀ d ∈ List.zipWith (fun e p => (e - p) / p) xs (cummaxFrom m xs), d ≤ 0 := by
  induction xs with
  | nil => intro m _ _ d hd; simp [cummaxFrom] at hd
  | cons x xs ih =>
    intro m hm hpos d hd
    simp only [cummaxFrom, List.zipWith_cons_cons, List.mem_cons] at hd
    rcases hd with rfl | hd
    · exact div_nonpos_of_nonpos_of_nonneg
        (by have := le_max_right m x; linarith)
        (le_of_lt (lt_max_of_lt_left hm))
    · exact ih (max m x) (lt_max_of_lt_left hm)
        (fun y hy => hpos y (by simp [hy])) d hd

theorem zip_dd_zero_iff (xs : List ℚ) :
    ∀ m, 0 < m → (∀ x ∈ xs, 0 < x) →
      ((∀ d ∈ List.zipWith (fun e p => (e - p) / p) xs (cummaxFrom m xs), d = 0) ↔
        List.Chain (· ≤ ·) m xs) := by
  induction xs with
  | nil => intro m _ _; simp [cummaxFrom]
  | cons x xs ih =>
    intro m hm hpos
    have hx : 0 < x := hpos x (by simp)
    have hmx : (0 : ℚ) < max m x := lt_max_of_lt_left hm
    constructor
    · intro h
      have hhead : (x - max m x) / max m x = 0 := h _ (by simp [cummaxFrom])
      have h0 : x - max m x = 0 := by
        rw [div_eq_zero_iff] at hhead
        rcases hhead with h' | h'
        · exact h'
        · exact absurd h' (ne_of_gt hmx)
      have hmx' : max m x = x := by linarith
      have hle : m ≤ x := max_eq_right_iff.mp hmx'
      rw [List.chain_cons]
      refine ⟨hle, ?_⟩
      have htail : ∀ d ∈ List.zipWith (fun e p => (e - p) / p) xs
          (cummaxFrom (max m x) xs), d = 0 :=
        fun d hd => h d (by simp [cummaxFrom, hd])
      rw [hmx'] at htail
      exact (ih x hx (fun y hy => hpos y (by simp [hy]))).mp htail
    · intro h
      rw [List.chain_cons] at h
      obtain ⟨hle, hchain⟩ := h
      have hmx' : max m x = x := max_eq_right hle
      intro d hd
      simp only [cummaxFrom, List.zipWith_cons_cons, List.mem_cons, hmx'] at hd
      rcases hd with rfl | hd
      · simp
      · exact (ih x hx (fun y hy => hpos y (by simp [hy]))).mpr hchain d hd

/-- C8: for every non-empty equity curve with strictly positive values,
the max drawdown — the minimum over time of
`(equity - running peak)/running peak` with the running peak the
cumulative maximum — is `≤ 0`, and it equals `0` exactly when the equity
series is non-decreasing. -/
theorem maxDrawdown_spec (l : List ℚ) (hne : l ≠ []) (hpos : ∀ x ∈ l, 0 < x) :
    ∃ m, maxDrawdown l = some m ∧ m ≤ 0 ∧ (m = 0 ↔ List.Chain' (· ≤ ·) l) := by
  cases l with
  | nil => exact absurd rfl hne
  | cons x xs =>
    have hx : 0 < x := hpos x (by simp)
    have hxs : ∀ y ∈ xs, 0 < y := fun y hy => hpos y (by simp [hy])
    have hdd : drawdowns (x :: xs) =
        0 :: List.zipWith (fun e p => (e - p) / p) xs (cummaxFrom x xs) := by
      simp [drawdowns, cummax]
    obtain ⟨m, hm⟩ : ∃ m, (drawdowns (x :: xs)).min? = some m := by
      rw [hdd]
      exact ⟨_, List.min?_cons'⟩
    have hmem : m ∈ drawdowns (x :: xs) :=
      List.min?_mem (fun a b => min_choice a b) hm
    have hleall : ∀ b ∈ drawdowns (x :: xs), m ≤ b :=
      (List.le_min?_iff (fun a b c => le_min_iff) hm).mp (le_refl m)
    have hallle : ∀ d ∈ drawdowns (x :: xs), d ≤ 0 := by
      intro d hd
      rw [hdd] at hd
      rcases List.mem_cons.mp hd with rfl | hd'
      · exact le_refl 0
      · exact zip_dd_nonpos xs x hx hxs d hd'
    refine ⟨m, hm, hallle m hmem, ?_, ?_⟩
    · intro hm0
      have hz : ∀ d ∈ List.zipWith (fun e p => (e - p) / p) xs
          (cummaxFrom x xs), d = 0 := by
        intro d hd
        have h1 := hleall d (by rw [hdd]; exact List.mem_cons_of_mem _ hd)
        have h2 := hallle d (by rw [hdd]; exact List.mem_cons_of_mem _ hd)
        rw [hm0] at h1
        linarith
      show List.Chain (· ≤ ·) x xs
      exact (zip_dd_zero_iff xs x hx hxs).mp hz
    · intro hchain
      have hchain' : List.Chain (· ≤ ·) x xs := hchain
      have hz := (zip_dd_zero_iff xs x hx hxs).mpr hchain'
      rw [hdd] at hmem
      rcases List.mem_cons.mp hmem with rfl | hm'
      · rfl
      · exact hz m hm'

/-- C8, witness at the concrete curve `[1, 2]`. -/
theorem maxDrawdown_spec_witness :
    ∃ m, maxDrawdown [(1 : ℚ), 2] = some m ∧ m ≤ 0 ∧
      (m = 0 ↔ List.Chain' (· ≤ ·) [(1 : ℚ), 2]) :=
  maxDrawdown_spec [1, 2] (by simp) (by norm_num)

/-! ## Claim C7: the two CAGR formulas agree -/

/-- C7: the code's CAGR, `(1 + total return) ^ (1 / ((last - first)/365)) - 1`,
equals the spec's `(1 + total return) ^ (365 / total days) - 1` whenever the
last date is strictly after the first. -/
theorem cagr_eq_spec (tr : ℝ) (firstDate lastDate : ℕ)
    (h : firstDate < lastDate) :
    cagrCode tr firstDate lastDate = cagrSpec tr (lastDate - firstDate) := by
  unfold cagrCode cagrSpec
  rw [one_div_div]

/-- C7, witness at `total return = 0`, dates one year apart. -/
theorem cagr_eq_spec_witness : cagrCode 0 0 365 = cagrSpec 0 365 :=
  cagr_eq_spec 0 0 365 (by decide)

/-! ## Claim C6: arithmetic sentinels -/

theorem sampleVar_zero_all_eq (l : List ℚ) (h : sampleVar l = some 0) :
    ∀ x ∈ l, x = meanQ l := by
  unfold sampleVar at h
  by_cases hlen : l.length ≤ 1
  · rw [if_pos hlen] at h
    exact absurd h (by simp)
  · rw [if_neg hlen] at h
    have hlen' : 1 < l.length := by omega
    have hden : ((l.length : ℚ) - 1) ≠ 0 := by
      have h1 : (1 : ℚ) < (l.length : ℚ) := by exact_mod_cast hlen'
      linarith
    have hsum : (l.map (fun x => (x - meanQ l) ^ 2)).sum = 0 := by
      have h0 := Option.some.inj h
      rcases div_eq_zero_iff.mp h0 with h' | h'
      · exact h'
      · exact absurd h' hden
    intro x hx
    have hnn : ∀ y ∈ l.map (fun x => (x - meanQ l) ^ 2), 0 ≤ y := by
      intro y hy
      obtain ⟨z, _, rfl⟩ := List.mem_map.mp hy
      positivity
    have hmm : (x - meanQ l) ^ 2 ∈ l.map (fun x => (x - meanQ l) ^ 2) :=
      List.mem_map_of_mem _ hx
    have h1 : (x - meanQ l) ^ 2 ≤ 0 := hsum ▸ List.single_le_sum hnn _ hmm
    have h2 := sq_nonneg (x - meanQ l)
    have h3 : (x - meanQ l) ^ 2 = 0 := le_antisymm h1 h2
    have := (pow_eq_zero_iff two_ne_zero).mp h3
    linarith

/-- C6: when the daily-return standard deviation is zero, the Sharpe ratio
is the `NaN` sentinel (and in particular not the finite value `0`); when
there are no losing trades, the profit factor is the `inf` sentinel (and
not `0`).  Both computations are total — nothing is raised — and neither
value is clamped to `0`. -/
theorem sentinel_values (eq : List ℚ) (rets : List ℚ)
    (hstd : sampleVar (dailyReturns eq) = some 0)
    (hwin : ∀ r ∈ rets, 0 ≤ r) :
    sharpeRatio eq = RVal.nan ∧ sharpeRatio eq ≠ RVal.fin 0 ∧
      profitFactor rets = PFVal.inf ∧ profitFactor rets ≠ PFVal.fin 0 := by
  have hner : dailyReturns eq ≠ [] := by
    intro hnil
    rw [hnil] at hstd
    simp [sampleVar] at hstd
  have hzero_mem : (0 : ℚ) ∈ dailyReturns eq := by
    cases eq with
    | nil => simp [dailyReturns] at hner
    | cons x rest => simp [dailyReturns]
  have hall := sampleVar_zero_all_eq _ hstd
  have hmean : meanQ (dailyReturns eq) = 0 := (hall 0 hzero_mem).symm
  have hpstd : pandasStd (dailyReturns eq) = RVal.fin 0 := by
    unfold pandasStd
    rw [hstd]
    norm_num
  have hsharpe : sharpeRatio eq = RVal.nan := by
    show floatDivByStd (Real.sqrt 252 * ((meanQ (dailyReturns eq) : ℚ) : ℝ))
      (pandasStd (dailyReturns eq)) = RVal.nan
    rw [hmean, hpstd]
    norm_num [floatDivByStd]
  have hfil : rets.filter (fun r => r < 0) = [] := by
    rw [List.filter_eq_nil_iff]
    intro a ha
    simpa using not_lt.mpr (hwin a ha)
  have hpf : profitFactor rets = PFVal.inf := by
    unfold profitFactor
    rw [hfil]
    simp
  exact ⟨hsharpe, by rw [hsharpe]; exact fun h => RVal.noConfusion h,
    hpf, by rw [hpf]; exact fun h => PFVal.noConfusion h⟩

/-- C6, witness: the constant equity curve `[1, 1, 1]` (zero variance) and
the all-winning trade-return list `[5]`. -/
theorem sentinel_values_witness :
    sharpeRatio [1, 1, 1] = RVal.nan ∧ sharpeRatio [1, 1, 1] ≠ RVal.fin 0 ∧
      profitFactor [5] = PFVal.inf ∧ profitFactor [5] ≠ PFVal.fin 0 :=
  sentinel_values [1, 1, 1] [5]
    (by norm_num [sampleVar, dailyReturns, pctAux, meanQ])
    (by norm_num)

/-! ## Claim C9: window underflow empties the series, without error -/

theorem s1Kept_nil_of_short (bars : List Bar) (h : bars.length < 25) :
    s1Kept bars = [] := by
  rw [s1Kept, List.filter_eq_nil_iff]
  intro r hr
  simp only [s1Aug, List.mem_map, List.mem_range] at hr
  obtain ⟨i, hi, rfl⟩ := hr
  have h25 : ¬ (25 ≤ i + 1) := by omega
  simp [rollingOpt, h25]

theorem s4Kept_nil_of_short (bars : List Bar) (h : bars.length < 200) :
    s4Kept bars = [] := by
  rw [s4Kept, List.filter_eq_nil_iff]
  intro r hr
  simp only [s4Aug, List.mem_map, List.mem_range] at hr
  obtain ⟨i, hi, rfl⟩ := hr
  have h200 : ¬ (200 ≤ i + 1) := by omega
  simp [rollingOpt, h200]

/-- C9: if the input bar series has fewer bars than the largest indicator
window requested by the strategy (25 for strategy 1, 200 for strategy 4),
every row of the working series is dropped by `dropna` and
`generate_signals` returns an empty table; both functions are total, so no
error is raised. -/
theorem short_series_empty (bars1 bars4 : List Bar)
    (h1 : bars1.length < 25) (h4 : bars4.length < 200) :
    s1Kept bars1 = [] ∧ strategy1 bars1 = [] ∧
      s4Kept bars4 = [] ∧ strategy4 bars4 = [] := by
  have k1 := s1Kept_nil_of_short bars1 h1
  have k4 := s4Kept_nil_of_short bars4 h4
  refine ⟨k1, ?_, k4, ?_⟩
  · rw [strategy1, k1]
    rfl
  · rw [strategy4, k4]
    rfl

/-- C9, witness at a single well-formed bar. -/
theorem short_series_empty_witness :
    s1Kept [⟨0, 2, 1, 3/2⟩] = [] ∧ strategy1 [⟨0, 2, 1, 3/2⟩] = [] ∧
      s4Kept [⟨0, 2, 1, 3/2⟩] = [] ∧ strategy4 [⟨0, 2, 1, 3/2⟩] = [] :=
  short_series_empty [⟨0, 2, 1, 3/2⟩] [⟨0, 2, 1, 3/2⟩] (by decide) (by decide)

/-! ## Claim C10: bars with `High = Low` are dropped by strategy 1 -/

/-- C10: for OHLC bars (where `Low ≤ Close ≤ High`), every bar with
`High = Low` has IBS `0/0 = NaN`, so `dropna` removes it: the working
series strategy 1 generates signals from never contains a bar with
`High = Low`. -/
theorem s1Kept_no_flat_bars (bars : List Bar)
    (hwf : ∀ b ∈ bars, b.low ≤ b.close ∧ b.close ≤ b.high) :
    ∀ r ∈ s1Kept bars, r.bar.high ≠ r.bar.low := by
  intro r hr
  rw [s1Kept, List.mem_filter] at hr
  obtain ⟨hmem, hp⟩ := hr
  simp only [s1Aug, List.mem_map, List.mem_range] at hmem
  obtain ⟨i, hi, rfl⟩ := hmem
  intro heq
  simp only at heq hp
  have hb : bars.getD i default ∈ bars := by
    rw [List.getD_eq_getElem bars default hi]
    exact List.getElem_mem hi
  obtain ⟨hlc, hch⟩ := hwf _ hb
  have hcl : (bars.getD i default).close = (bars.getD i default).low := by
    rw [heq] at hch
    exact le_antisymm hch hlc
  rw [heq, hcl] at hp
  simp [qdiv] at hp

/-- C10, witness: a well-formed bar list containing a `High = Low` bar. -/
theorem s1Kept_no_flat_bars_witness :
    (∀ b ∈ [Bar.mk 0 2 1 (3/2), Bar.mk 1 1 1 1], b.low ≤ b.close ∧ b.close ≤ b.high) ∧
      ∀ r ∈ s1Kept [Bar.mk 0 2 1 (3/2), Bar.mk 1 1 1 1], r.bar.high ≠ r.bar.low :=
  ⟨by norm_num,
    s1Kept_no_flat_bars [Bar.mk 0 2 1 (3/2), Bar.mk 1 1 1 1] (by norm_num)⟩

/-! ## Claim C2: the spec's concrete scenario -/

/-- C2, counterexample: on prices `[100, 110, 90, 130]` with entry true
only at index 0 and exit true at index 3, the signals are `[1, 0, 0, -1]`,
but the `EquityCurve` is NOT `[1.0, 1.0, 1.0, 1.3]` (the sell fires on the
last bar and its lag-one return would land at index 4, past the series
end), and `calculate_metrics` returns the absent result rather than one
Trade (its precheck finds no `diff() == -2` exit). -/
theorem scenario_counterexample :
    signalLoop scenConds = [1, 0, 0, -1] ∧
      equityCurve ((signalLoop scenConds).zip scenCloses) ≠ [1, 1, 1, 13/10] ∧
      calcMetrics (pipeline [0, 1, 2, 3] scenCloses scenConds) = none := by
  refine ⟨by decide, ?_, by decide⟩
  intro hiff
  have : (1 : ℚ) = 13 / 10 := by
    have h4 := congrArg (fun l => l.getLastD 0) hiff
    simpa [equityCurve, equityAux, eqVal, eqStep, scenConds, scenCloses,
      signalLoop, signalLoopFrom] using h4
  norm_num at this

/-- C2, amended: in the spec's scenario the state machine emits
`[1, 0, 0, -1]` and the trade scan records exactly one Trade
{entry 100, exit 130, return 30.0%}, but the `EquityCurve` equals
`[1.0, 1.0, 1.0, 1.0]` — the sell's return is never realized because
lag-one execution would apply it one bar past the end of the series —
and `calculate_metrics` returns the absent "no trades" result because its
diff-based precheck sees no sell adjacent to a buy. -/
theorem scenario_amended :
    signalLoop scenConds = [1, 0, 0, -1] ∧
      equityCurve ((signalLoop scenConds).zip scenCloses) = [1, 1, 1, 1] ∧
      tradesScan (pipeline [0, 1, 2, 3] scenCloses scenConds) =
        [⟨0, 3, 100, 130, 30⟩] ∧
      calcMetrics (pipeline [0, 1, 2, 3] scenCloses scenConds) = none := by
  refine ⟨by decide, ?_, ?_, by decide⟩
  · simp [equityCurve, equityAux, eqVal, eqStep, scenConds, scenCloses,
      signalLoop, signalLoopFrom]
  · simp [pipeline, tradesScan, tradesScanAux, mkTrade, equityCurve,
      equityAux, eqVal, eqStep, scenConds, scenCloses, signalLoop,
      signalLoopFrom]
    norm_num

end Backtest
